import Mathlib

/-!
Shallow embedding of `src/mapreduce_word_analyzer.py` (class `MapReduceWordCounter`).

Texts and words are modelled as lists of Unicode code points (`Nat`), with the
character classes of Python's `re` module (`\w`, `\s`, `\d`) and `str.lower`
restricted to their ASCII behaviour.  Python exceptions are modelled with
`Except String`, the error string naming the exception class that is raised.
-/

/-- A text (Python `str`): a list of Unicode code points (`Nat`). -/
abbrev Text := List Nat

/-- A word is also a string in the source. -/
abbrev Word := List Nat

/-- Python regex `\d` (ASCII): decimal digit `0`-`9`. -/
def isDigitC (c : Nat) : Bool := decide (48 ≤ c ∧ c ≤ 57)

/-- ASCII uppercase letter `A`-`Z`. -/
def isUpperC (c : Nat) : Bool := decide (65 ≤ c ∧ c ≤ 90)

/-- ASCII lowercase letter `a`-`z`. -/
def isLowerC (c : Nat) : Bool := decide (97 ≤ c ∧ c ≤ 122)

/-- ASCII letter. -/
def isAlphaC (c : Nat) : Bool := isUpperC c || isLowerC c

/-- Python regex `\w` (ASCII): letter, digit or underscore (`_` = 95). -/
def isWordC (c : Nat) : Bool := isAlphaC c || isDigitC c || decide (c = 95)

/-- Python regex `\s` / `str.split()` whitespace (ASCII): space, `\t`, `\n`,
`\v`, `\f`, `\r`. -/
def isSpaceC (c : Nat) : Bool :=
  decide (c = 32 ∨ c = 9 ∨ c = 10 ∨ c = 11 ∨ c = 12 ∨ c = 13)

/-- Python `str.lower` on one character (ASCII): shift `A`-`Z` down to `a`-`z`. -/
def toLowerC (c : Nat) : Nat := if isUpperC c then c + 32 else c

/-- Embeds `re.sub(r'[^\w\s]', ' ', text)`: every character that is neither a word
character nor whitespace becomes a space. -/
def subPunct (t : Text) : Text :=
  t.map (fun c => if isWordC c || isSpaceC c then c else 32)

/-- Embeds `re.sub(r'\d+', ' ', text)`: every maximal run of digits becomes a single
space (emitted when the run, scanned character by character, ends). -/
def subDigits : Text → Text
  | [] => []
  | [c] => if isDigitC c then [32] else [c]
  | c :: d :: cs =>
    if isDigitC c then
      (if isDigitC d then subDigits (d :: cs) else 32 :: subDigits (d :: cs))
    else c :: subDigits (d :: cs)

/-- Python `text.lower()` (ASCII). -/
def pyLower (t : Text) : Text := t.map toLowerC

/-- Helper for `text.split()`: `acc` holds the current token, reversed. -/
def pySplitAux : Text → Word → List Word
  | [], acc => if acc.isEmpty then [] else [acc.reverse]
  | c :: cs, acc =>
    if isSpaceC c then
      if acc.isEmpty then pySplitAux cs [] else acc.reverse :: pySplitAux cs []
    else pySplitAux cs (c :: acc)

/-- Python `text.split()`: split on whitespace runs, discarding empty tokens. -/
def pySplit (t : Text) : List Word := pySplitAux t []

/-- Python `' '.join(ws)`. -/
def joinWords : List Word → Text
  | [] => []
  | [w] => w
  | w :: v :: ws => w ++ 32 :: joinWords (v :: ws)

/-- Embeds `MapReduceWordCounter.clean_text` (lines 34-51): strip punctuation, strip
digit runs, lowercase, collapse whitespace via `' '.join(text.split())`. -/
def clean_text (t : Text) : Text :=
  joinWords (pySplit (pyLower (subDigits (subPunct t))))

/-- Encode a Lean string literal as a `Text` of code points. -/
def strToText (s : String) : Text := s.data.map Char.toNat

-- Sanity examples (kept as compiled facts, they guard the embedding).
example : clean_text (strToText "Hello, World 42!") = strToText "hello world" := by decide
example : clean_text (strToText "a_b") = strToText "a_b" := by decide
example : pySplit (strToText "  the cat ") = [strToText "the", strToText "cat"] := by decide

/-- Embeds `MapReduceWordCounter.split_text` (lines 53-77): split into `num_chunks`
parts; `chunk_size = len(words) // num_chunks` (a `ZeroDivisionError` when
`num_chunks = 0`); part `i` is `words[i*chunk_size : (i+1)*chunk_size]`,
except the last part, which is `words[(n-1)*chunk_size :]`; each part is
re-joined with spaces.  `words[a : b]` is `(words.drop a).take (b - a)`. -/
def split_text (t : Text) (num_chunks : Nat) : Except String (List Text) :=
  if num_chunks = 0 then .error "ZeroDivisionError" else
    let words := pySplit t
    let chunk_size := words.length / num_chunks
    .ok ((List.range num_chunks).map (fun i =>
      if i = num_chunks - 1 then joinWords (words.drop (i * chunk_size))
      else joinWords ((words.drop (i * chunk_size)).take chunk_size)))

/-- The hard-coded stop-word set of `map_function` (lines 91-102). -/
def stop_words : List Word :=
  [strToText "the", strToText "a", strToText "an", strToText "and",
   strToText "or", strToText "but", strToText "in", strToText "on",
   strToText "at", strToText "to", strToText "for", strToText "of",
   strToText "with", strToText "by", strToText "from", strToText "up",
   strToText "about", strToText "into", strToText "through",
   strToText "during", strToText "before", strToText "after",
   strToText "above", strToText "below", strToText "between",
   strToText "among", strToText "is", strToText "are", strToText "was",
   strToText "were", strToText "be", strToText "been", strToText "being",
   strToText "have", strToText "has", strToText "had", strToText "do",
   strToText "does", strToText "did", strToText "will", strToText "would",
   strToText "should", strToText "could", strToText "can", strToText "may",
   strToText "might", strToText "must", strToText "shall", strToText "i",
   strToText "you", strToText "he", strToText "she", strToText "it",
   strToText "we", strToText "they", strToText "them", strToText "their",
   strToText "this", strToText "that", strToText "these", strToText "those",
   strToText "not", strToText "no", strToText "yes", strToText "all",
   strToText "any", strToText "some", strToText "each", strToText "every",
   strToText "most", strToText "more", strToText "less", strToText "much",
   strToText "many", strToText "few", strToText "little", strToText "big",
   strToText "small", strToText "large", strToText "great", strToText "good",
   strToText "bad", strToText "new", strToText "old", strToText "first",
   strToText "last", strToText "next", strToText "same", strToText "other"]

/-- Embeds `MapReduceWordCounter.map_function` (lines 79-110): split the chunk on
whitespace, keep words with `len(word) >= 3 and word not in stop_words`,
emit a `(word, 1)` pair per kept occurrence (the Python loop with a
conditional `append` is a filter followed by a map). -/
def map_function (text_chunk : Text) : List (Word × Nat) :=
  (((pySplit text_chunk).filter
      (fun w => decide (3 ≤ w.length) && !(stop_words.contains w))).map
    (fun w => (w, 1)))

/-- One iteration of the `reduce_function` loop: `word_freq[word] += count` on
a `defaultdict(int)`.  An existing key is updated in place; a missing key is
appended at the end (Python dicts keep insertion order). -/
def dictAdd (acc : List (Word × Nat)) (p : Word × Nat) : List (Word × Nat) :=
  match acc with
  | [] => [p]
  | q :: rest =>
    if q.1 == p.1 then (q.1, q.2 + p.2) :: rest else q :: dictAdd rest p

/-- Embeds `MapReduceWordCounter.reduce_function` (lines 112-125): fold the
`(word, count)` pairs into a dictionary, summing counts per word.  The
dictionary is modelled as an insertion-ordered association list. -/
def reduce_function (word_counts : List (Word × Nat)) : List (Word × Nat) :=
  word_counts.foldl dictAdd []

/-- Embeds `MapReduceWordCounter.mapreduce` (lines 127-169): clean the text, split it
into `num_workers` chunks, run `map_function` on every chunk, concatenate all
pair lists, reduce.  The thread pool collects chunk results with
`as_completed`, i.e. in an arbitrary order; the embedding collects them in
submission order, and order-independence of the reduce stage is proved
separately. -/
def mapreduce (num_workers : Nat) (text : Text) :
    Except String (List (Word × Nat)) := do
  let cleaned_text := clean_text text
  let text_chunks ← split_text cleaned_text num_workers
  let all_word_pairs := (text_chunks.map map_function).flatten
  pure (reduce_function all_word_pairs)

/-- Dictionary lookup: value of the first entry with key `w`, if any. -/
def dlookup (d : List (Word × Nat)) (w : Word) : Option Nat :=
  (d.find? (fun q => q.1 == w)).map (fun q => q.2)

/-- Dictionary key list (`dict.keys()`, in insertion order). -/
def dkeys (d : List (Word × Nat)) : List Word := d.map (fun q => q.1)

/-- Python `sum(d.values())`. -/
def valuesSum (d : List (Word × Nat)) : Nat := (d.map (fun q => q.2)).sum

/-- Total of the counts carried by a pair list. -/
def countsSum (l : List (Word × Nat)) : Nat := (l.map (fun q => q.2)).sum

/-- Total count carried by the pairs whose key is `w`. -/
def sumCounts (w : Word) (l : List (Word × Nat)) : Nat :=
  ((l.filter (fun q => q.1 == w)).map (fun q => q.2)).sum

example :
    mapreduce 1 (strToText "The cat sat on the mat. The cat ran.") =
      .ok [(strToText "cat", 2), (strToText "sat", 1),
           (strToText "mat", 1), (strToText "ran", 1)] := by rfl

example : mapreduce 0 (strToText "x") = .error "ZeroDivisionError" := by rfl

example :
    split_text (strToText "a b c") 2 = .ok [strToText "a", strToText "b c"] := by
  rfl

/-! ### Character-level facts -/

lemma space_not_upper {c : Nat} (hs : isSpaceC c = true) : isUpperC c = false := by
  simp only [isSpaceC, isUpperC, decide_eq_true_eq, decide_eq_false_iff_not] at hs ⊢
  omega

lemma toLowerC_space {c : Nat} (hs : isSpaceC c = true) : toLowerC c = c := by
  simp [toLowerC, space_not_upper hs]

lemma toLowerC_good {c : Nat} (hw : isWordC c = true) (hd : isDigitC c = false) :
    isLowerC (toLowerC c) = true ∨ toLowerC c = 95 := by
  unfold toLowerC
  simp only [isWordC, isAlphaC, isUpperC, isLowerC, isDigitC, Bool.or_eq_true,
    decide_eq_true_eq, decide_eq_false_iff_not] at hw hd ⊢
  split <;> omega

lemma good_not_space {c : Nat} (h : isLowerC c = true ∨ c = 95) :
    isSpaceC c = false := by
  simp only [isLowerC, isSpaceC, decide_eq_true_eq, decide_eq_false_iff_not] at h ⊢
  omega

lemma good_word {c : Nat} (h : isLowerC c = true ∨ c = 95 ∨ c = 32) :
    (isWordC c || isSpaceC c) = true := by
  simp only [isWordC, isAlphaC, isUpperC, isLowerC, isDigitC, isSpaceC,
    Bool.or_eq_true, decide_eq_true_eq] at h ⊢
  omega

lemma good_not_digit {c : Nat} (h : isLowerC c = true ∨ c = 95 ∨ c = 32) :
    isDigitC c = false := by
  simp only [isLowerC, isDigitC, decide_eq_true_eq, decide_eq_false_iff_not] at h ⊢
  omega

lemma good_not_upper {c : Nat} (h : isLowerC c = true ∨ c = 95 ∨ c = 32) :
    isUpperC c = false := by
  simp only [isLowerC, isUpperC, decide_eq_true_eq, decide_eq_false_iff_not] at h ⊢
  omega

/-- Pointwise-identity maps are the identity. -/
lemma map_self {α : Type} {f : α → α} :
    ∀ l : List α, (∀ a ∈ l, f a = a) → l.map f = l := by
  intro l
  induction l with
  | nil => intro _; rfl
  | cons x xs ih =>
    intro h
    simp only [List.map_cons]
    rw [h x (List.mem_cons_self _ _), ih (fun a ha => h a (List.mem_cons_of_mem _ ha))]

/-! ### `subPunct`, `subDigits`, `pyLower` -/

lemma subPunct_chars (t : Text) :
    ∀ c ∈ subPunct t, isWordC c = true ∨ isSpaceC c = true := by
  intro c hc
  simp only [subPunct, List.mem_map] at hc
  obtain ⟨a, _, ha⟩ := hc
  by_cases h : (isWordC a || isSpaceC a) = true
  · rw [if_pos h] at ha
    subst ha
    simpa [Bool.or_eq_true] using h
  · rw [if_neg h] at ha
    subst ha
    right; decide

lemma subPunct_eq_self (t : Text) (h : ∀ c ∈ t, (isWordC c || isSpaceC c) = true) :
    subPunct t = t :=
  map_self t (fun c hc => if_pos (h c hc))

lemma subDigits_chars :
    ∀ t : Text, ∀ c ∈ subDigits t, (c ∈ t ∧ isDigitC c = false) ∨ c = 32 := by
  intro t
  induction t with
  | nil => intro c hc; simp [subDigits] at hc
  | cons x xs ih =>
    intro c hc
    cases hx : isDigitC x with
    | true =>
      cases xs with
      | nil =>
        simp [subDigits, hx] at hc
        exact Or.inr hc
      | cons d ds =>
        cases hd : isDigitC d with
        | true =>
          simp only [subDigits, hx, hd, if_true] at hc
          rcases ih c hc with ⟨hm, hnd⟩ | h32
          · exact Or.inl ⟨List.mem_cons_of_mem _ hm, hnd⟩
          · exact Or.inr h32
        | false =>
          simp only [subDigits, hx, hd, if_true, Bool.false_eq_true, if_false,
            List.mem_cons] at hc
          rcases hc with rfl | hc'
          · exact Or.inr rfl
          · rcases ih c hc' with ⟨hm, hnd⟩ | h32
            · exact Or.inl ⟨List.mem_cons_of_mem _ hm, hnd⟩
            · exact Or.inr h32
    | false =>
      have hstep : subDigits (x :: xs) = x :: subDigits xs := by
        cases xs <;> simp [subDigits, hx]
      rw [hstep, List.mem_cons] at hc
      rcases hc with rfl | hc'
      · exact Or.inl ⟨List.mem_cons_self _ _, hx⟩
      · rcases ih c hc' with ⟨hm, hnd⟩ | h32
        · exact Or.inl ⟨List.mem_cons_of_mem _ hm, hnd⟩
        · exact Or.inr h32

lemma subDigits_eq_self :
    ∀ t : Text, (∀ c ∈ t, isDigitC c = false) → subDigits t = t := by
  intro t
  induction t with
  | nil => intro _; rfl
  | cons x xs ih =>
    intro h
    have hx : isDigitC x = false := h x (List.mem_cons_self _ _)
    have hstep : subDigits (x :: xs) = x :: subDigits xs := by
      cases xs <;> simp [subDigits, hx]
    rw [hstep, ih (fun c hc => h c (List.mem_cons_of_mem _ hc))]

lemma pyLower_eq_self (t : Text) (h : ∀ c ∈ t, isUpperC c = false) :
    pyLower t = t :=
  map_self t (fun c hc => by simp [toLowerC, h c hc])

/-! ### `pySplit` and `joinWords` -/

/-- Tokens produced by `pySplitAux` are nonempty, contain no whitespace, and
satisfy any property `P` that holds for the non-space input characters and the
accumulator characters. -/
lemma pySplitAux_chars (P : Nat → Prop) :
    ∀ (t : Text) (acc : Word),
      (∀ c ∈ t, isSpaceC c = false → P c) →
      (∀ c ∈ acc, isSpaceC c = false ∧ P c) →
      ∀ w ∈ pySplitAux t acc, w ≠ [] ∧ ∀ c ∈ w, isSpaceC c = false ∧ P c := by
  intro t
  induction t with
  | nil =>
    intro acc _ hacc w hw
    cases acc with
    | nil => simp [pySplitAux] at hw
    | cons a as =>
      simp only [pySplitAux, List.isEmpty_cons, Bool.false_eq_true, if_false,
        List.mem_singleton] at hw
      subst hw
      refine ⟨by simp, ?_⟩
      intro c hc
      rw [List.mem_reverse] at hc
      exact hacc c hc
  | cons x xs ih =>
    intro acc ht hacc w hw
    have hxs : ∀ c ∈ xs, isSpaceC c = false → P c :=
      fun c hc => ht c (List.mem_cons_of_mem _ hc)
    cases hx : isSpaceC x with
    | true =>
      cases acc with
      | nil =>
        simp only [pySplitAux, hx, if_true, List.isEmpty_nil] at hw
        exact ih [] hxs (by simp) w hw
      | cons a as =>
        simp only [pySplitAux, hx, if_true, List.isEmpty_cons, Bool.false_eq_true,
          if_false, List.mem_cons] at hw
        rcases hw with rfl | hw'
        · refine ⟨by simp, ?_⟩
          intro c hc
          rw [List.mem_reverse] at hc
          exact hacc c hc
        · exact ih [] hxs (by simp) w hw'
    | false =>
      simp only [pySplitAux, hx, Bool.false_eq_true, if_false] at hw
      refine ih (x :: acc) hxs ?_ w hw
      intro c hc
      rcases List.mem_cons.mp hc with rfl | hc'
      · exact ⟨hx, ht c (List.mem_cons_self _ _) hx⟩
      · exact hacc c hc'

/-- Every token of `pySplit` is nonempty and whitespace-free. -/
lemma pySplit_tokens (t : Text) :
    ∀ w ∈ pySplit t, w ≠ [] ∧ ∀ c ∈ w, isSpaceC c = false := by
  intro w hw
  have h := pySplitAux_chars (fun _ => True) t []
    (fun _ _ _ => trivial) (by simp) w hw
  exact ⟨h.1, fun c hc => (h.2 c hc).1⟩

/-- Token characters of `pySplit` satisfy any property holding for all
non-space characters of the input. -/
lemma pySplit_chars (P : Nat → Prop) (t : Text)
    (ht : ∀ c ∈ t, isSpaceC c = false → P c) :
    ∀ w ∈ pySplit t, w ≠ [] ∧ ∀ c ∈ w, isSpaceC c = false ∧ P c :=
  pySplitAux_chars P t [] ht (by simp)

/-- Lemma: `pySplitAux` consumes a whitespace-free prefix into the accumulator. -/
lemma pySplitAux_append :
    ∀ (w : Word) (rest : Text) (acc : Word), (∀ c ∈ w, isSpaceC c = false) →
      pySplitAux (w ++ rest) acc = pySplitAux rest (w.reverse ++ acc) := by
  intro w
  induction w with
  | nil => intro rest acc _; simp
  | cons c cs ih =>
    intro rest acc h
    have hc : isSpaceC c = false := h c (List.mem_cons_self _ _)
    simp only [List.cons_append, pySplitAux, hc, Bool.false_eq_true, if_false]
    show pySplitAux (cs ++ rest) (c :: acc) = pySplitAux rest ((c :: cs).reverse ++ acc)
    rw [ih rest (c :: acc) (fun d hd => h d (List.mem_cons_of_mem _ hd))]
    simp

/-- Splitting the space-join of nonempty whitespace-free tokens recovers the
tokens. -/
lemma pySplit_joinWords :
    ∀ ws : List Word, (∀ w ∈ ws, w ≠ [] ∧ ∀ c ∈ w, isSpaceC c = false) →
      pySplit (joinWords ws) = ws := by
  intro ws
  induction ws with
  | nil => intro _; rfl
  | cons w ws ih =>
    intro h
    obtain ⟨hne, hns⟩ := h w (List.mem_cons_self _ _)
    cases ws with
    | nil =>
      show pySplitAux (joinWords [w]) [] = [w]
      have : joinWords [w] = w ++ ([] : Text) := by simp [joinWords]
      rw [this, pySplitAux_append w [] [] hns, List.append_nil]
      cases hw : w.reverse with
      | nil => exact absurd (by simpa using hw) hne
      | cons a as =>
        simp only [pySplitAux, List.isEmpty_cons, Bool.false_eq_true, if_false,
          List.cons.injEq]
        rw [← hw, List.reverse_reverse]
        exact ⟨rfl, trivial⟩
    | cons v ws' =>
      show pySplitAux (joinWords (w :: v :: ws')) [] = w :: v :: ws'
      have hj : joinWords (w :: v :: ws') = w ++ 32 :: joinWords (v :: ws') := rfl
      rw [hj, pySplitAux_append w _ [] hns]
      have h32 : isSpaceC 32 = true := by decide
      cases hw : w.reverse with
      | nil => exact absurd (by simpa using hw) hne
      | cons a as =>
        simp only [pySplitAux, h32, if_true, List.append_nil, hw,
          List.isEmpty_cons, Bool.false_eq_true, if_false]
        rw [← hw, List.reverse_reverse]
        exact congrArg (w :: ·) (ih (fun u hu => h u (List.mem_cons_of_mem _ hu)))

/-- A character of a space-join is a token character or the space `32`. -/
lemma mem_joinWords :
    ∀ (ws : List Word) (c : Nat), c ∈ joinWords ws →
      (∃ w ∈ ws, c ∈ w) ∨ c = 32 := by
  intro ws
  induction ws with
  | nil => intro c hc; simp [joinWords] at hc
  | cons w ws ih =>
    intro c hc
    cases ws with
    | nil => exact Or.inl ⟨w, List.mem_cons_self _ _, by simpa [joinWords] using hc⟩
    | cons v ws' =>
      have hj : joinWords (w :: v :: ws') = w ++ 32 :: joinWords (v :: ws') := rfl
      rw [hj, List.mem_append, List.mem_cons] at hc
      rcases hc with h | h | h
      · exact Or.inl ⟨w, List.mem_cons_self _ _, h⟩
      · exact Or.inr h
      · rcases ih c h with ⟨u, hu, hcu⟩ | h32
        · exact Or.inl ⟨u, List.mem_cons_of_mem _ hu, hcu⟩
        · exact Or.inr h32

/-! ### Structure of `clean_text` -/

/-- Every character surviving punctuation removal, digit removal and
lowercasing is a space, a lowercase letter, or an underscore. -/
lemma clean_pre_chars (t : Text) :
    ∀ c ∈ pyLower (subDigits (subPunct t)),
      isSpaceC c = true ∨ isLowerC c = true ∨ c = 95 := by
  intro c hc
  simp only [pyLower, List.mem_map] at hc
  obtain ⟨d, hd, rfl⟩ := hc
  rcases subDigits_chars _ d hd with ⟨hmem, hnd⟩ | rfl
  · rcases subPunct_chars t d hmem with hw | hs
    · exact Or.inr (toLowerC_good hw hnd)
    · rw [toLowerC_space hs]
      exact Or.inl hs
  · left; decide

/-- The tokens of the normalized text are nonempty and consist of lowercase
letters and underscores. -/
lemma clean_text_pre_tokens (t : Text) :
    ∀ w ∈ pySplit (pyLower (subDigits (subPunct t))),
      w ≠ [] ∧ ∀ c ∈ w, isSpaceC c = false ∧ (isLowerC c = true ∨ c = 95) := by
  apply pySplit_chars
  intro c hc hns
  rcases clean_pre_chars t c hc with hs | h
  · rw [hs] at hns; cases hns
  · exact h

/-- Splitting `clean_text` recovers the token list it was joined from. -/
lemma pySplit_clean_text (t : Text) :
    pySplit (clean_text t) = pySplit (pyLower (subDigits (subPunct t))) := by
  unfold clean_text
  apply pySplit_joinWords
  intro w hw
  obtain ⟨hne, hc⟩ := clean_text_pre_tokens t w hw
  exact ⟨hne, fun c hcw => (hc c hcw).1⟩

/-- Lemma: `clean_text` is the space-join of its own token list. -/
lemma clean_text_eq_joinWords (t : Text) :
    clean_text t = joinWords (pySplit (clean_text t)) := by
  rw [pySplit_clean_text]
  rfl

/-- The tokens of `clean_text t` are nonempty words of lowercase letters and
underscores. -/
lemma clean_text_tokens (t : Text) :
    ∀ w ∈ pySplit (clean_text t),
      w ≠ [] ∧ ∀ c ∈ w, isSpaceC c = false ∧ (isLowerC c = true ∨ c = 95) := by
  rw [pySplit_clean_text]
  exact clean_text_pre_tokens t

/-- Every character of `clean_text t` is a lowercase letter, an underscore, or
the single space separator. -/
lemma clean_text_chars (t : Text) :
    ∀ c ∈ clean_text t, isLowerC c = true ∨ c = 95 ∨ c = 32 := by
  intro c hc
  rw [clean_text_eq_joinWords] at hc
  rcases mem_joinWords _ c hc with ⟨w, hw, hcw⟩ | h32
  · rcases (clean_text_tokens t w hw).2 c hcw with ⟨_, hl | h95⟩
    · exact Or.inl hl
    · exact Or.inr (Or.inl h95)
  · exact Or.inr (Or.inr h32)

/-- Idempotence core: `clean_text` leaves its own output unchanged. -/
lemma clean_text_idem (t : Text) : clean_text (clean_text t) = clean_text t := by
  have hch := clean_text_chars t
  have h1 : subPunct (clean_text t) = clean_text t :=
    subPunct_eq_self _ (fun c hc => good_word (hch c hc))
  have h2 : subDigits (clean_text t) = clean_text t :=
    subDigits_eq_self _ (fun c hc => good_not_digit (hch c hc))
  have h3 : pyLower (clean_text t) = clean_text t :=
    pyLower_eq_self _ (fun c hc => good_not_upper (hch c hc))
  calc clean_text (clean_text t)
      = joinWords (pySplit (clean_text t)) := by
        conv_lhs => rw [clean_text]
        rw [h1, h2, h3]
    _ = clean_text t := (clean_text_eq_joinWords t).symm

/-! ### `split_text`: chunk structure and coverage -/

/-- The first `m` fixed-size slices concatenate to the first `m * cs` words. -/
lemma slices_flatten (words : List Word) (cs : Nat) :
    ∀ m : Nat,
      ((List.range m).map (fun i => (words.drop (i * cs)).take cs)).flatten =
        words.take (m * cs) := by
  intro m
  induction m with
  | zero => simp
  | succ k ih =>
    rw [List.range_succ, List.map_append, List.flatten_append]
    simp only [List.map_cons, List.map_nil, List.flatten_cons, List.flatten_nil,
      List.append_nil]
    rw [ih, Nat.succ_mul, List.take_add]

/-- Lemma: `split_text` on any text: exactly `n` chunks, whose word slices
concatenate to the full word list of the input. -/
lemma split_text_spec (t : Text) (n : Nat) (h : n ≠ 0) :
    ∃ chunks, split_text t n = .ok chunks ∧ chunks.length = n ∧
      chunks.map pySplit =
        (List.range n).map (fun i =>
          if i = n - 1 then (pySplit t).drop (i * ((pySplit t).length / n))
          else (((pySplit t).drop (i * ((pySplit t).length / n))).take
            ((pySplit t).length / n))) ∧
      (chunks.map pySplit).flatten = pySplit t := by
  set words := pySplit t with hwords
  set cs := words.length / n with hcs
  have hnice : ∀ w ∈ words, w ≠ [] ∧ ∀ c ∈ w, isSpaceC c = false :=
    pySplit_tokens t
  have hslice : ∀ ws : List Word, ws.Sublist words →
      pySplit (joinWords ws) = ws := by
    intro ws hsub
    exact pySplit_joinWords ws (fun w hw => hnice w (hsub.mem hw))
  refine ⟨_, by rw [split_text, if_neg h], by simp, ?_, ?_⟩
  · rw [List.map_map]
    apply List.map_congr_left
    intro i _
    by_cases hi : i = n - 1
    · simp only [Function.comp, hi, if_true]
      exact hslice _ (List.drop_sublist _ _)
    · simp only [Function.comp, hi, if_false]
      exact hslice _ ((List.take_sublist _ _).trans (List.drop_sublist _ _))
  · rw [List.map_map]
    have hmap :
        (List.range n).map (pySplit ∘ fun i =>
          if i = n - 1 then joinWords (words.drop (i * cs))
          else joinWords ((words.drop (i * cs)).take cs)) =
        (List.range n).map (fun i =>
          if i = n - 1 then words.drop (i * cs)
          else (words.drop (i * cs)).take cs) := by
      apply List.map_congr_left
      intro i _
      by_cases hi : i = n - 1
      · simp only [Function.comp, hi, if_true]
        exact hslice _ (List.drop_sublist _ _)
      · simp only [Function.comp, hi, if_false]
        exact hslice _ ((List.take_sublist _ _).trans (List.drop_sublist _ _))
    rw [hmap]
    obtain ⟨k, rfl⟩ : ∃ k, n = k + 1 := ⟨n - 1, (Nat.succ_pred_eq_of_pos (Nat.pos_of_ne_zero h)).symm⟩
    rw [List.range_succ, List.map_append, List.flatten_append]
    have hback : k + 1 - 1 = k := rfl
    have hfront :
        (List.range k).map (fun i =>
          if i = k + 1 - 1 then words.drop (i * cs)
          else (words.drop (i * cs)).take cs) =
        (List.range k).map (fun i => (words.drop (i * cs)).take cs) := by
      apply List.map_congr_left
      intro i hi
      rw [List.mem_range] at hi
      rw [if_neg (by omega)]
    rw [hfront, slices_flatten]
    simp only [List.map_cons, List.map_nil, List.flatten_cons, List.flatten_nil,
      List.append_nil, hback, if_pos rfl]
    exact List.take_append_drop _ _

/-! ### Map stage -/

/-- Facts about `map_function`: every emitted pair carries count 1 and a key that
passed the eligibility filter. -/
lemma map_function_mem {c : Text} {q : Word × Nat} (hq : q ∈ map_function c) :
    q.2 = 1 ∧ 3 ≤ q.1.length ∧ q.1 ∉ stop_words := by
  simp only [map_function, List.mem_map, List.mem_filter, Bool.and_eq_true,
    Bool.not_eq_true', decide_eq_true_eq] at hq
  obtain ⟨w, ⟨_, hlen, hstop⟩, rfl⟩ := hq
  refine ⟨rfl, hlen, ?_⟩
  intro hmem
  have hc : stop_words.contains w = true := by simpa using hmem
  rw [hstop] at hc
  cases hc

/-- Filtering then unit-pairing commutes with flattening a chunk list. -/
lemma flatten_filter_map (p : Word → Bool) :
    ∀ L : List (List Word),
      (L.map (fun ws => (ws.filter p).map (fun w => (w, (1 : Nat))))).flatten =
        ((L.flatten).filter p).map (fun w => (w, (1 : Nat))) := by
  intro L
  induction L with
  | nil => rfl
  | cons a L ih =>
    simp only [List.map_cons, List.flatten_cons, List.filter_append,
      List.map_append, ih]

/-- The concatenated map-stage output over the chunks of `split_text` equals
the map-stage output on the undivided text. -/
lemma flatten_map_function (t : Text) (n : Nat) (h : n ≠ 0) (chunks : List Text)
    (hc : split_text t n = .ok chunks) :
    (chunks.map map_function).flatten = map_function t := by
  obtain ⟨chunks', hok, _, _, hcover⟩ := split_text_spec t n h
  rw [hok] at hc
  injection hc with hc
  subst hc
  have hmf : chunks'.map map_function =
      (chunks'.map pySplit).map (fun ws =>
        (ws.filter (fun w => decide (3 ≤ w.length) && !(stop_words.contains w))).map
          (fun w => (w, (1 : Nat)))) := by
    rw [List.map_map]
    apply List.map_congr_left
    intro c _
    rfl
  rw [hmf, flatten_filter_map, hcover]
  rfl

/-! ### Reduce stage -/

lemma valuesSum_dictAdd : ∀ (acc : List (Word × Nat)) (p : Word × Nat),
    valuesSum (dictAdd acc p) = valuesSum acc + p.2 := by
  intro acc p
  induction acc with
  | nil => simp [dictAdd, valuesSum]
  | cons q rest ih =>
    cases hq : q.1 == p.1 with
    | true =>
      simp only [dictAdd, hq, if_true, valuesSum, List.map_cons, List.sum_cons]
      simp only [valuesSum] at *
      omega
    | false =>
      simp only [dictAdd, hq, Bool.false_eq_true, if_false, valuesSum,
        List.map_cons, List.sum_cons]
      simp only [valuesSum] at ih
      omega

lemma valuesSum_foldl : ∀ (l : List (Word × Nat)) (acc : List (Word × Nat)),
    valuesSum (List.foldl dictAdd acc l) = valuesSum acc + countsSum l := by
  intro l
  induction l with
  | nil => intro acc; simp [countsSum]
  | cons p l ih =>
    intro acc
    simp only [List.foldl_cons, ih, valuesSum_dictAdd, countsSum, List.map_cons,
      List.sum_cons]
    simp only [countsSum] at *
    omega

/-- The sum of the dictionary values built by `reduce_function` equals the sum
of the input counts. -/
lemma valuesSum_reduce (l : List (Word × Nat)) :
    valuesSum (reduce_function l) = countsSum l := by
  have h := valuesSum_foldl l []
  simpa [reduce_function, valuesSum] using h

lemma countsSum_ones : ∀ l : List (Word × Nat),
    (∀ q ∈ l, q.2 = 1) → countsSum l = l.length := by
  intro l
  induction l with
  | nil => intro _; rfl
  | cons p l ih =>
    intro h
    simp only [countsSum, List.map_cons, List.sum_cons, List.length_cons]
    rw [h p (List.mem_cons_self _ _)]
    simp only [countsSum] at ih
    rw [ih (fun q hq => h q (List.mem_cons_of_mem _ hq))]
    omega

lemma dlookup_nil (w : Word) : dlookup [] w = none := rfl

lemma dlookup_cons (q : Word × Nat) (d : List (Word × Nat)) (w : Word) :
    dlookup (q :: d) w = if q.1 == w then some q.2 else dlookup d w := by
  simp only [dlookup, List.find?_cons]
  cases h : q.1 == w <;> simp [h]

lemma dlookup_dictAdd : ∀ (acc : List (Word × Nat)) (p : Word × Nat) (w : Word),
    dlookup (dictAdd acc p) w =
      if w = p.1 then some ((dlookup acc p.1).getD 0 + p.2)
      else dlookup acc w := by
  intro acc
  induction acc with
  | nil =>
    intro p w
    by_cases hw : w = p.1
    · subst hw
      simp [dictAdd, dlookup_cons, dlookup_nil]
    · have hpw : ¬ p.1 = w := fun he => hw he.symm
      simp [dictAdd, dlookup_cons, dlookup_nil, hw, hpw]
  | cons q rest ih =>
    intro p w
    by_cases hq : q.1 = p.1
    · have hstep : dictAdd (q :: rest) p = (q.1, q.2 + p.2) :: rest := by
        simp [dictAdd, hq]
      by_cases hw : w = p.1
      · subst hw
        simp [hstep, dlookup_cons, hq]
      · have hpw : ¬ p.1 = w := fun he => hw he.symm
        have hqw : ¬ q.1 = w := hq ▸ hpw
        simp [hstep, dlookup_cons, hq, hw, hpw, hqw]
    · have hstep : dictAdd (q :: rest) p = q :: dictAdd rest p := by
        simp [dictAdd, hq]
      by_cases hw : w = q.1
      · subst hw
        have hwp : ¬ q.1 = p.1 := hq
        simp [hstep, dlookup_cons, hwp, hq]
      · have hqw : ¬ q.1 = w := fun he => hw he.symm
        by_cases hwp : w = p.1
        · subst hwp
          simp [hstep, dlookup_cons, hqw, hq, ih]
        · simp [hstep, dlookup_cons, hqw, hwp, ih]

lemma sumCounts_cons (w : Word) (p : Word × Nat) (l : List (Word × Nat)) :
    sumCounts w (p :: l) =
      (if p.1 == w then p.2 else 0) + sumCounts w l := by
  simp only [sumCounts, List.filter_cons]
  cases h : p.1 == w <;> simp [h]

lemma sumCounts_eq_zero {w : Word} {l : List (Word × Nat)}
    (h : l.any (fun q => q.1 == w) = false) : sumCounts w l = 0 := by
  have hfil : l.filter (fun q => q.1 == w) = [] :=
    List.filter_eq_nil_iff.mpr (List.any_eq_false.mp h)
  simp [sumCounts, hfil]

lemma dlookup_foldl : ∀ (l : List (Word × Nat)) (acc : List (Word × Nat)) (w : Word),
    dlookup (List.foldl dictAdd acc l) w =
      if l.any (fun q => q.1 == w) then
        some ((dlookup acc w).getD 0 + sumCounts w l)
      else dlookup acc w := by
  intro l
  induction l with
  | nil => intro acc w; simp [sumCounts]
  | cons p l ih =>
    intro acc w
    rw [List.foldl_cons, ih, sumCounts_cons]
    by_cases hpw : p.1 = w
    · subst hpw
      have hadd : dlookup (dictAdd acc p) p.1 =
          some ((dlookup acc p.1).getD 0 + p.2) := by
        rw [dlookup_dictAdd, if_pos rfl]
      cases hl : l.any (fun q => q.1 == p.1) with
      | true =>
        simp only [hl, if_true, hadd, Option.getD_some, List.any_cons,
          beq_self_eq_true, Bool.true_or, Option.some.injEq]
        omega
      | false =>
        rw [sumCounts_eq_zero hl]
        simp only [hl, Bool.false_eq_true, if_false, hadd, List.any_cons,
          beq_self_eq_true, Bool.true_or, if_true, Option.some.injEq]
        omega
    · have hb : (p.1 == w) = false := by rw [beq_eq_false_iff_ne]; exact hpw
      have hget : dlookup (dictAdd acc p) w = dlookup acc w := by
        rw [dlookup_dictAdd, if_neg (fun he => hpw he.symm)]
      simp only [List.any_cons, hb, Bool.false_or, hget, if_false,
        Bool.false_eq_true, Nat.zero_add]

/-- Closed form of `reduce_function` under lookup: the count of `w` is the sum
of all input counts carried by `w`, and `w` is a key iff it occurs. -/
lemma dlookup_reduce (l : List (Word × Nat)) (w : Word) :
    dlookup (reduce_function l) w =
      if l.any (fun q => q.1 == w) then some (sumCounts w l) else none := by
  rw [reduce_function, dlookup_foldl]
  cases h : l.any (fun q => q.1 == w) <;> simp [h, dlookup_nil]

/-- Membership in the key list is definedness of the lookup. -/
lemma mem_dkeys_iff (d : List (Word × Nat)) (w : Word) :
    w ∈ dkeys d ↔ dlookup d w ≠ none := by
  induction d with
  | nil => simp [dkeys, dlookup_nil]
  | cons q rest ih =>
    rw [dkeys, List.map_cons, List.mem_cons, dlookup_cons]
    cases hq : q.1 == w with
    | true =>
      rw [beq_iff_eq] at hq
      simp [hq]
    | false =>
      have : ¬ w = q.1 := fun he => by
        rw [beq_eq_false_iff_ne] at hq
        exact hq he.symm
      simp only [Bool.false_eq_true, if_false, this, false_or]
      exact ih

/-- Keys added by `dictAdd` come from the accumulator or the new pair. -/
lemma dkeys_dictAdd_sub : ∀ (acc : List (Word × Nat)) (p : Word × Nat) (w : Word),
    w ∈ dkeys (dictAdd acc p) → w ∈ dkeys acc ∨ w = p.1 := by
  intro acc
  induction acc with
  | nil =>
    intro p w hw
    simp only [dictAdd, dkeys, List.map_cons, List.map_nil,
      List.mem_singleton] at hw
    exact Or.inr hw
  | cons q rest ih =>
    intro p w hw
    cases hq : q.1 == p.1 with
    | true =>
      simp only [dictAdd, hq, if_true, dkeys, List.map_cons, List.mem_cons] at hw
      rcases hw with rfl | hw'
      · exact Or.inl (List.mem_cons_self _ _)
      · exact Or.inl (List.mem_cons_of_mem _ hw')
    | false =>
      simp only [dictAdd, hq, Bool.false_eq_true, if_false, dkeys,
        List.map_cons, List.mem_cons] at hw
      rcases hw with rfl | hw'
      · exact Or.inl (List.mem_cons_self _ _)
      · rcases ih p w hw' with h | h
        · exact Or.inl (List.mem_cons_of_mem _ h)
        · exact Or.inr h

/-- Keys of the folded dictionary come from the accumulator or the pair list. -/
lemma dkeys_foldl_sub : ∀ (l : List (Word × Nat)) (acc : List (Word × Nat)) (w : Word),
    w ∈ dkeys (List.foldl dictAdd acc l) →
      w ∈ dkeys acc ∨ ∃ q ∈ l, q.1 = w := by
  intro l
  induction l with
  | nil => intro acc w hw; exact Or.inl hw
  | cons p l ih =>
    intro acc w hw
    rw [List.foldl_cons] at hw
    rcases ih (dictAdd acc p) w hw with h | ⟨q, hq, rfl⟩
    · rcases dkeys_dictAdd_sub acc p w h with h' | rfl
      · exact Or.inl h'
      · exact Or.inr ⟨p, List.mem_cons_self _ _, rfl⟩
    · exact Or.inr ⟨q, List.mem_cons_of_mem _ hq, rfl⟩

/-- Every key of `reduce_function l` is the key of some input pair. -/
lemma dkeys_reduce_sub {l : List (Word × Nat)} {w : Word}
    (hw : w ∈ dkeys (reduce_function l)) : ∃ q ∈ l, q.1 = w := by
  rcases dkeys_foldl_sub l [] w hw with h | h
  · simp [dkeys] at h
  · exact h

/-- Lemma: `dictAdd` preserves positivity of all stored counts. -/
lemma dictAdd_pos : ∀ (acc : List (Word × Nat)) (p : Word × Nat),
    (∀ r ∈ acc, 1 ≤ r.2) → 1 ≤ p.2 → ∀ r ∈ dictAdd acc p, 1 ≤ r.2 := by
  intro acc
  induction acc with
  | nil =>
    intro p _ hp r hr
    simp only [dictAdd, List.mem_singleton] at hr
    subst hr; exact hp
  | cons q rest ih =>
    intro p hacc hp r hr
    cases hq : q.1 == p.1 with
    | true =>
      simp only [dictAdd, hq, if_true, List.mem_cons] at hr
      rcases hr with rfl | hr'
      · have := hacc q (List.mem_cons_self _ _)
        simp only []
        omega
      · exact hacc r (List.mem_cons_of_mem _ hr')
    | false =>
      simp only [dictAdd, hq, Bool.false_eq_true, if_false, List.mem_cons] at hr
      rcases hr with rfl | hr'
      · exact hacc r (List.mem_cons_self _ _)
      · exact ih p (fun s hs => hacc s (List.mem_cons_of_mem _ hs)) hp r hr'

/-- The folded dictionary stores only positive counts when inputs are
positive. -/
lemma foldl_pos : ∀ (l : List (Word × Nat)) (acc : List (Word × Nat)),
    (∀ q ∈ l, 1 ≤ q.2) → (∀ r ∈ acc, 1 ≤ r.2) →
    ∀ r ∈ List.foldl dictAdd acc l, 1 ≤ r.2 := by
  intro l
  induction l with
  | nil => intro acc _ hacc r hr; exact hacc r hr
  | cons p l ih =>
    intro acc hl hacc r hr
    rw [List.foldl_cons] at hr
    exact ih (dictAdd acc p)
      (fun q hq => hl q (List.mem_cons_of_mem _ hq))
      (dictAdd_pos acc p hacc (hl p (List.mem_cons_self _ _))) r hr

/-! ### The full pipeline -/

/-- For every positive worker count, `mapreduce` succeeds and returns the
single-chunk reference computation. -/
lemma mapreduce_eq_ref (text : Text) (n : Nat) (h : n ≠ 0) :
    mapreduce n text = .ok (reduce_function (map_function (clean_text text))) := by
  obtain ⟨chunks, hok, _, _, _⟩ := split_text_spec (clean_text text) n h
  have hflat := flatten_map_function (clean_text text) n h chunks hok
  rw [mapreduce]
  rw [hok]
  show Except.ok (reduce_function ((chunks.map map_function).flatten)) = _
  rw [hflat]

/-! ### Claims -/

/-- C1: for every text and every `n ≥ 1`, `split_text` applied to the
normalized text produces exactly `n` chunks, the concatenation of the chunks'
word sequences is exactly the normalized word sequence, and space-joining it
reproduces the normalized text. -/
theorem c1_partition_coverage (t : Text) (n : Nat) (h : 1 ≤ n) :
    ∃ chunks, split_text (clean_text t) n = .ok chunks ∧
      chunks.length = n ∧
      (chunks.map pySplit).flatten = pySplit (clean_text t) ∧
      joinWords ((chunks.map pySplit).flatten) = clean_text t := by
  obtain ⟨chunks, hok, hlen, _, hcover⟩ :=
    split_text_spec (clean_text t) n (by omega)
  refine ⟨chunks, hok, hlen, hcover, ?_⟩
  rw [hcover]
  exact (clean_text_eq_joinWords t).symm

/-- Witness for C1 at a concrete text and `n = 2`. -/
theorem c1_partition_coverage_witness :
    ∃ chunks, split_text (clean_text (strToText "One two, three!")) 2 = .ok chunks ∧
      chunks.length = 2 ∧
      (chunks.map pySplit).flatten = pySplit (clean_text (strToText "One two, three!")) ∧
      joinWords ((chunks.map pySplit).flatten) = clean_text (strToText "One two, three!") :=
  c1_partition_coverage (strToText "One two, three!") 2 (by decide)

/-- C2 counterexample: with `num_workers = 0` the run fails with a
`ZeroDivisionError` raised by the `len(words) // num_chunks` computation in
`split_text`, not with a `ConfigurationError` (no such error exists in the
program). -/
theorem c2_zero_workers_counterexample :
    mapreduce 0 (strToText "some text") = .error "ZeroDivisionError" ∧
    "ZeroDivisionError" ≠ "ConfigurationError" :=
  ⟨rfl, by decide⟩

/-- C2 (amended): for every input text, running with `num_workers = 0` fails
with a `ZeroDivisionError` and no frequency table is returned. -/
theorem c2_zero_workers (text : Text) :
    mapreduce 0 text = .error "ZeroDivisionError" := rfl

/-- C3: for every text and every `num_workers ≥ 1`, every key of the returned
frequency table has length at least 3 and is not a stop word. -/
theorem c3_filter_correct (text : Text) (n : Nat) (h : 1 ≤ n)
    (ft : List (Word × Nat)) (hft : mapreduce n text = .ok ft) :
    ∀ w ∈ dkeys ft, 3 ≤ w.length ∧ w ∉ stop_words := by
  rw [mapreduce_eq_ref text n (by omega)] at hft
  injection hft with hft
  subst hft
  intro w hw
  obtain ⟨q, hq, rfl⟩ := dkeys_reduce_sub hw
  exact ⟨(map_function_mem hq).2.1, (map_function_mem hq).2.2⟩

/-- Witness for C3 on the scenario text with one worker. -/
theorem c3_filter_correct_witness :
    3 ≤ (strToText "cat").length ∧ (strToText "cat") ∉ stop_words :=
  c3_filter_correct (strToText "The cat sat on the mat. The cat ran.") 1
    (by decide)
    [(strToText "cat", 2), (strToText "sat", 1), (strToText "mat", 1),
     (strToText "ran", 1)]
    rfl (strToText "cat") (by decide)

/-- C4 counterexample: `clean_text` keeps underscores (regex `\w` matches
`_`), so its output is not made of alphabetic characters only: on input
`"x_y"` the output contains the character `_` (code 95), which is neither
alphabetic nor a space. -/
theorem c4_normalizer_counterexample :
    clean_text (strToText "x_y") = strToText "x_y" ∧
    (95 : Nat) ∈ clean_text (strToText "x_y") ∧
    isAlphaC 95 = false ∧ isSpaceC 95 = false := by decide

/-- C4 (amended): for every text, the output of `clean_text` is the
single-space join of its nonempty tokens, each consisting solely of lowercase
letters and underscores; hence every character is a lowercase letter, an
underscore, or a separating space, and there is no leading or trailing
whitespace. -/
theorem c4_normalizer_shape (t : Text) :
    clean_text t = joinWords (pySplit (clean_text t)) ∧
    (∀ w ∈ pySplit (clean_text t),
      w ≠ [] ∧ ∀ c ∈ w, isSpaceC c = false ∧ (isLowerC c = true ∨ c = 95)) ∧
    (∀ c ∈ clean_text t, isLowerC c = true ∨ c = 95 ∨ c = 32) :=
  ⟨clean_text_eq_joinWords t, clean_text_tokens t, clean_text_chars t⟩

/-- C5: `clean_text` is idempotent. -/
theorem c5_normalizer_idempotent (t : Text) :
    clean_text (clean_text t) = clean_text t :=
  clean_text_idem t

/-- C6: the sum of the values of `reduce_function`'s result equals the sum of
the input counts; in particular, for every run of the pipeline, the sum of the
frequency-table values equals the number of `(word, 1)` pairs emitted across
all chunks by the map stage. -/
theorem c6_sum_invariant (l : List (Word × Nat)) (text : Text) (n : Nat)
    (h : 1 ≤ n) :
    valuesSum (reduce_function l) = countsSum l ∧
    ∃ chunks ft, split_text (clean_text text) n = .ok chunks ∧
      mapreduce n text = .ok ft ∧
      valuesSum ft = ((chunks.map map_function).flatten).length := by
  refine ⟨valuesSum_reduce l, ?_⟩
  obtain ⟨chunks, hok, _, _, _⟩ := split_text_spec (clean_text text) n (by omega)
  have hflat := flatten_map_function (clean_text text) n (by omega) chunks hok
  refine ⟨chunks, _, hok, mapreduce_eq_ref text n (by omega), ?_⟩
  rw [hflat, valuesSum_reduce]
  apply countsSum_ones
  intro q hq
  exact (map_function_mem hq).1

/-- Witness for C6 at a concrete pair list, text and `n = 2`. -/
theorem c6_sum_invariant_witness :
    valuesSum (reduce_function [(strToText "dog", 2)]) =
      countsSum [(strToText "dog", 2)] ∧
    ∃ chunks ft, split_text (clean_text (strToText "big dogs run far")) 2 = .ok chunks ∧
      mapreduce 2 (strToText "big dogs run far") = .ok ft ∧
      valuesSum ft = ((chunks.map map_function).flatten).length :=
  c6_sum_invariant [(strToText "dog", 2)] (strToText "big dogs run far") 2
    (by decide)

/-- C7: aggregation is order-independent: permuting the input pair list
leaves the lookup of every word, and the key set, unchanged. -/
theorem c7_order_independent (l l' : List (Word × Nat)) (hp : l.Perm l')
    (w : Word) :
    dlookup (reduce_function l) w = dlookup (reduce_function l') w ∧
    (w ∈ dkeys (reduce_function l) ↔ w ∈ dkeys (reduce_function l')) := by
  have hany : (l.any fun q => q.1 == w) = (l'.any fun q => q.1 == w) := by
    rw [Bool.eq_iff_iff, List.any_eq_true, List.any_eq_true]
    constructor
    · rintro ⟨x, hx, hfx⟩; exact ⟨x, hp.mem_iff.mp hx, hfx⟩
    · rintro ⟨x, hx, hfx⟩; exact ⟨x, hp.mem_iff.mpr hx, hfx⟩
  have hsum : sumCounts w l = sumCounts w l' := ((hp.filter _).map _).sum_eq
  have hlook : dlookup (reduce_function l) w = dlookup (reduce_function l') w := by
    rw [dlookup_reduce, dlookup_reduce, hany, hsum]
  exact ⟨hlook, by rw [mem_dkeys_iff, mem_dkeys_iff, hlook]⟩

/-- Witness for C7 on a two-element list and its transposition. -/
theorem c7_order_independent_witness :
    dlookup (reduce_function [(strToText "cat", 1), (strToText "dog", 2)])
        (strToText "cat") =
      dlookup (reduce_function [(strToText "dog", 2), (strToText "cat", 1)])
        (strToText "cat") ∧
    ((strToText "cat") ∈
        dkeys (reduce_function [(strToText "cat", 1), (strToText "dog", 2)]) ↔
      (strToText "cat") ∈
        dkeys (reduce_function [(strToText "dog", 2), (strToText "cat", 1)])) :=
  c7_order_independent _ _
    (List.Perm.swap (strToText "dog", 2) (strToText "cat", 1) [])
    (strToText "cat")

/-- C8: on the scenario input with one worker, normalization yields
`"the cat sat on the mat the cat ran"`, the eligible words are
`cat sat mat cat ran`, and the frequency table is exactly
`{cat: 2, sat: 1, mat: 1, ran: 1}`. -/
theorem c8_scenario :
    clean_text (strToText "The cat sat on the mat. The cat ran.") =
      strToText "the cat sat on the mat the cat ran" ∧
    (map_function (clean_text (strToText "The cat sat on the mat. The cat ran."))).map
        (fun q => q.1) =
      [strToText "cat", strToText "sat", strToText "mat", strToText "cat",
       strToText "ran"] ∧
    mapreduce 1 (strToText "The cat sat on the mat. The cat ran.") =
      .ok [(strToText "cat", 2), (strToText "sat", 1), (strToText "mat", 1),
           (strToText "ran", 1)] :=
  ⟨by decide, by decide, by rfl⟩

/-- C9: the final table is independent of the partitioning degree: any two
positive worker counts give equal results, and both equal the single-chunk
reference computation `reduce_function (map_function (clean_text text))`. -/
theorem c9_partition_independent (text : Text) (m n : Nat) (hm : 1 ≤ m)
    (hn : 1 ≤ n) :
    mapreduce m text = mapreduce n text ∧
    mapreduce m text = .ok (reduce_function (map_function (clean_text text))) := by
  have h1 := mapreduce_eq_ref text m (by omega)
  have h2 := mapreduce_eq_ref text n (by omega)
  exact ⟨h1.trans h2.symm, h1⟩

/-- Witness for C9 at a concrete text with `m = 1`, `n = 3`. -/
theorem c9_partition_independent_witness :
    mapreduce 1 (strToText "red fox, blue fox!") =
      mapreduce 3 (strToText "red fox, blue fox!") ∧
    mapreduce 1 (strToText "red fox, blue fox!") =
      .ok (reduce_function (map_function (clean_text (strToText "red fox, blue fox!")))) :=
  c9_partition_independent (strToText "red fox, blue fox!") 1 3 (by decide)
    (by decide)

/-- C10: every value of the returned frequency table is at least 1. -/
theorem c10_values_positive (text : Text) (n : Nat) (h : 1 ≤ n)
    (ft : List (Word × Nat)) (hft : mapreduce n text = .ok ft) :
    ∀ p ∈ ft, 1 ≤ p.2 := by
  rw [mapreduce_eq_ref text n (by omega)] at hft
  injection hft with hft
  subst hft
  refine foldl_pos _ [] ?_ (by intro r hr; cases hr)
  intro q hq
  have h1 := (map_function_mem hq).1
  omega

/-- Witness for C10 on the scenario run. -/
theorem c10_values_positive_witness :
    1 ≤ ((strToText "cat", 2) : Word × Nat).2 :=
  c10_values_positive (strToText "The cat sat on the mat. The cat ran.") 1
    (by decide)
    [(strToText "cat", 2), (strToText "sat", 1), (strToText "mat", 1),
     (strToText "ran", 1)]
    rfl (strToText "cat", 2) (by decide)
